import Mathlib

/-!
Verification of the highlight-bot notification engine (`cogs/highlight.py`)
against its natural-language specification.

The Python source is shallowly embedded: the `PositiveCounter` dict subclass
becomes an association list of integer counts, the regex built by
`Highlight.build_re` is given its Python matching semantics directly, the
`Highlight.highlights` async generator becomes a pure list-producing function,
and the timed behaviour of `_track_spoken` / `on_typing` / `notify` is modelled
with explicit clocks (rationals for elapsed seconds, naturals for event times).
-/

namespace Highlight

/-! ## PositiveCounter (`cogs/highlight.py` lines 310-316)

`PositiveCounter` subclasses `collections.Counter`: lookup of an absent key
yields 0, `__setitem__` stores only strictly positive counts and otherwise
deletes the key (`del self[key]` under `contextlib.suppress(KeyError)`, so
deleting an absent key is a no-op).  We embed the dict as an association list
from keys to integer counts; `+= 1` / `-= 1` desugar to get-then-set. -/

/-- A `(channel id, user id)` key of `self.recently_spoken`. -/
abbrev Key := Nat × Nat

/-- The underlying dict of a `PositiveCounter`: an association list of counts. -/
abbrev PCounter := List (Key × Int)

/-- Embeds `collections.Counter.__getitem__`: the stored count, defaulting to 0 for a
missing key. -/
def cGet : PCounter → Key → Int
  | [], _ => 0
  | (k2, v) :: rest, k => if k2 = k then v else cGet rest k

/-- Embeds `key in counter`: dict key membership. -/
def cMem : PCounter → Key → Bool
  | [], _ => false
  | (k2, _) :: rest, k => decide (k2 = k) || cMem rest k

/-- Embeds `del counter[key]` under `contextlib.suppress(KeyError)`: remove the
binding of `key` if present, otherwise do nothing. -/
def cDel : PCounter → Key → PCounter
  | [], _ => []
  | (k2, v) :: rest, k => if k2 = k then cDel rest k else (k2, v) :: cDel rest k

/-- Embeds `PositiveCounter.__setitem__`: store the count only when it is strictly
positive, otherwise delete the key. -/
def cSetItem (c : PCounter) (k : Key) (v : Int) : PCounter :=
  if 0 < v then (k, v) :: cDel c k else cDel c k

/-- Embeds `counter[key] += 1`. -/
def cInc (c : PCounter) (k : Key) : PCounter := cSetItem c k (cGet c k + 1)

/-- Embeds `counter[key] -= 1`. -/
def cDec (c : PCounter) (k : Key) : PCounter := cSetItem c k (cGet c k - 1)

/-- The spec's counter invariant: every stored count is strictly positive. -/
def counterInv (c : PCounter) : Prop := ∀ p ∈ c, (0 : Int) < p.2

lemma mem_of_mem_cDel {c : PCounter} {k : Key} {p : Key × Int}
    (h : p ∈ cDel c k) : p ∈ c := by
  induction c with
  | nil => simp [cDel] at h
  | cons q rest ih =>
    cases q with
    | mk a b =>
      by_cases hk : a = k
      · rw [show cDel ((a, b) :: rest) k = cDel rest k by simp [cDel, hk]] at h
        exact List.mem_cons_of_mem _ (ih h)
      · rw [show cDel ((a, b) :: rest) k = (a, b) :: cDel rest k by
          simp [cDel, hk]] at h
        rcases List.mem_cons.mp h with h | h
        · exact h ▸ List.mem_cons_self _ _
        · exact List.mem_cons_of_mem _ (ih h)

lemma counterInv_cDel {c : PCounter} {k : Key} (h : counterInv c) :
    counterInv (cDel c k) :=
  fun p hp => h p (mem_of_mem_cDel hp)

lemma cMem_cDel (c : PCounter) (k : Key) : cMem (cDel c k) k = false := by
  induction c with
  | nil => simp [cDel, cMem]
  | cons q rest ih =>
    cases q with
    | mk a b =>
      by_cases hk : a = k
      · simp [cDel, hk, ih]
      · simp [cDel, cMem, hk, ih]

lemma cDel_of_not_mem {c : PCounter} {k : Key} (h : cMem c k = false) :
    cDel c k = c := by
  induction c with
  | nil => simp [cDel]
  | cons q rest ih =>
    cases q with
    | mk a b =>
      simp only [cMem, Bool.or_eq_false_iff, decide_eq_false_iff_not] at h
      simp [cDel, h.1, ih h.2]

lemma cGet_of_not_mem {c : PCounter} {k : Key} (h : cMem c k = false) :
    cGet c k = 0 := by
  induction c with
  | nil => simp [cGet]
  | cons q rest ih =>
    cases q with
    | mk a b =>
      simp only [cMem, Bool.or_eq_false_iff, decide_eq_false_iff_not] at h
      simp [cGet, h.1, ih h.2]

lemma counterInv_cSetItem {c : PCounter} (k : Key) (v : Int)
    (h : counterInv c) : counterInv (cSetItem c k v) := by
  unfold cSetItem
  split
  · intro p hp
    rcases List.mem_cons.mp hp with hp | hp
    · subst hp; assumption
    · exact counterInv_cDel h p hp
  · exact counterInv_cDel h

/-- Claim C5: the activity counter maps keys only to strictly positive counts:
after every increment and every decrement (a decrement of an absent key being a
no-op) every stored count is positive, and a count that reaches 0 removes the
key from the mapping. -/
theorem positive_counter_invariant (c : PCounter) (k : Key)
    (h : counterInv c) :
    counterInv (cInc c k) ∧ counterInv (cDec c k) ∧
    (cMem c k = false → cDec c k = c) ∧
    (cGet c k = 1 → cMem (cDec c k) k = false) := by
  refine ⟨counterInv_cSetItem _ _ h, counterInv_cSetItem _ _ h, ?_, ?_⟩
  · intro hm
    have hg : cGet c k = 0 := cGet_of_not_mem hm
    unfold cDec cSetItem
    rw [hg]
    norm_num
    exact cDel_of_not_mem hm
  · intro hg
    unfold cDec cSetItem
    rw [hg]
    norm_num
    exact cMem_cDel c k

/-- Witness for C5 at the concrete counter `[((0,0), 2)]`. -/
theorem positive_counter_invariant_witness :
    counterInv [(((0 : Nat), (0 : Nat)), (2 : Int))] ∧
    (counterInv (cInc [(((0 : Nat), (0 : Nat)), (2 : Int))] (0, 0)) ∧
     counterInv (cDec [(((0 : Nat), (0 : Nat)), (2 : Int))] (0, 0)) ∧
     (cMem [(((0 : Nat), (0 : Nat)), (2 : Int))] (0, 0) = false →
       cDec [(((0 : Nat), (0 : Nat)), (2 : Int))] (0, 0) =
         [(((0 : Nat), (0 : Nat)), (2 : Int))]) ∧
     (cGet [(((0 : Nat), (0 : Nat)), (2 : Int))] (0, 0) = 1 →
       cMem (cDec [(((0 : Nat), (0 : Nat)), (2 : Int))] (0, 0)) (0, 0) = false)) :=
  ⟨by unfold counterInv; decide,
   positive_counter_invariant _ _ (by unfold counterInv; decide)⟩

/-! ## Activity leases (`Highlight._track_spoken`, lines 209-236)

`_track_spoken(info, delay)` increments `self.recently_spoken[info]`, awaits
`asyncio.sleep(delay)`, then decrements.  Under the cooperative scheduler each
lease `(start, dur)` therefore applies its increment at time `start` and its
decrement at time `start + dur`.  `counterAt` replays, on an initially empty
counter, every event whose timestamp is `≤ t`, in timestamp order; among events
sharing a timestamp the increments are applied first, which is one of the valid
schedules (a lease's decrement can never run before its own increment). -/

/-- A canonical single-key counter state holding count `n` for key `k`. -/
def csingle (k : Key) (n : Nat) : PCounter :=
  if n = 0 then [] else [(k, (n : Int))]

/-- The `recently_spoken` counter observed at time `t`, given the leases
`(start, dur)` taken on key `k`: all increments due by `t` applied to the empty
counter, then all decrements due by `t`. -/
def counterAt (k : Key) (ls : List (Nat × Nat)) (t : Nat) : PCounter :=
  ((ls.filter (fun l => decide (l.1 + l.2 ≤ t))).foldl (fun c _ => cDec c k)
    ((ls.filter (fun l => decide (l.1 ≤ t))).foldl (fun c _ => cInc c k) []))

lemma cDel_csingle (k : Key) (n : Nat) : cDel (csingle k n) k = [] := by
  unfold csingle
  split
  · simp [cDel]
  · simp [cDel]

lemma cGet_csingle (k : Key) (n : Nat) : cGet (csingle k n) k = (n : Int) := by
  unfold csingle
  split
  · simp_all [cGet]
  · simp [cGet]

lemma cInc_csingle (k : Key) (n : Nat) :
    cInc (csingle k n) k = csingle k (n + 1) := by
  unfold cInc cSetItem
  rw [cGet_csingle, cDel_csingle]
  have hpos : (0 : Int) < (n : Int) + 1 := by positivity
  rw [if_pos hpos]
  unfold csingle
  rw [if_neg (Nat.succ_ne_zero n)]
  push_cast
  ring_nf

lemma cDec_csingle (k : Key) (n : Nat) :
    cDec (csingle k n) k = csingle k (n - 1) := by
  unfold cDec cSetItem
  rw [cGet_csingle, cDel_csingle]
  cases n with
  | zero => norm_num [csingle]
  | succ m =>
    cases m with
    | zero => norm_num [csingle]
    | succ m2 =>
      have hpos : (0 : Int) < ((m2 + 2 : Nat) : Int) - 1 := by push_cast; omega
      rw [if_pos hpos]
      unfold csingle
      rw [if_neg (by omega : ¬ m2 + 2 - 1 = 0)]
      push_cast
      ring_nf

lemma foldl_cInc_csingle (k : Key) :
    ∀ (l : List (Nat × Nat)) (n : Nat),
      l.foldl (fun c _ => cInc c k) (csingle k n) = csingle k (n + l.length) := by
  intro l
  induction l with
  | nil => intro n; simp
  | cons x xs ih =>
    intro n
    simp only [List.foldl_cons, cInc_csingle, ih, List.length_cons]
    ring_nf

lemma foldl_cDec_csingle (k : Key) :
    ∀ (l : List (Nat × Nat)) (n : Nat),
      l.foldl (fun c _ => cDec c k) (csingle k n) = csingle k (n - l.length) := by
  intro l
  induction l with
  | nil => intro n; simp
  | cons x xs ih =>
    intro n
    simp only [List.foldl_cons, cDec_csingle, ih, List.length_cons]
    congr 1
    omega

lemma cMem_csingle (k : Key) (n : Nat) :
    cMem (csingle k n) k = decide (0 < n) := by
  unfold csingle
  split
  · simp_all [cMem]
  · simp_all [cMem]
    omega

lemma filter_length_mono {α : Type} (p q : α → Bool)
    (hpq : ∀ x, p x = true → q x = true) :
    ∀ l : List α, (l.filter p).length ≤ (l.filter q).length := by
  intro l
  induction l with
  | nil => simp
  | cons x xs ih =>
    by_cases hp : p x = true
    · simp only [List.filter_cons, hp, if_true, List.length_cons, hpq x hp]
      omega
    · by_cases hq : q x = true <;>
        simp only [List.filter_cons, hp, hq, if_true, if_false,
          Bool.false_eq_true, List.length_cons] <;> omega

lemma filter_length_lt_iff {α : Type} (p q : α → Bool)
    (hpq : ∀ x, p x = true → q x = true) :
    ∀ l : List α,
      ((l.filter p).length < (l.filter q).length ↔
        ∃ x ∈ l, q x = true ∧ p x = false) := by
  intro l
  induction l with
  | nil => simp
  | cons x xs ih =>
    rcases Bool.eq_false_or_eq_true (p x) with hp | hp
    · have hq := hpq x hp
      simp [List.filter_cons, hp, hq, Nat.succ_lt_succ_iff, ih]
    · rcases Bool.eq_false_or_eq_true (q x) with hq | hq
      · simp only [List.filter_cons, hp, hq, if_true, Bool.false_eq_true,
          if_false, List.length_cons]
        constructor
        · intro _
          exact ⟨x, List.mem_cons_self _ _, hq, hp⟩
        · intro _
          exact Nat.lt_succ_of_le (filter_length_mono p q hpq xs)
      · simp [List.filter_cons, hp, hq, ih]

/-- Claim C4: for leases `(start, dur)` on key `k`, membership of `k` in the
`recently_spoken` counter at time `t` holds exactly when `t` lies in the union
of the half-open intervals `[start, start + dur)`: overlapping leases compose
by union, and an earlier lease's decrement never clears presence while a later
lease is still outstanding. -/
theorem lease_presence_union (k : Key) (ls : List (Nat × Nat)) (t : Nat) :
    cMem (counterAt k ls t) k = true ↔
      ∃ l ∈ ls, l.1 ≤ t ∧ t < l.1 + l.2 := by
  have hmono : ∀ x : Nat × Nat,
      decide (x.1 + x.2 ≤ t) = true → decide (x.1 ≤ t) = true := by
    intro x hx
    simp only [decide_eq_true_eq] at hx ⊢
    omega
  have hlt := filter_length_lt_iff (fun l => decide (l.1 + l.2 ≤ t))
    (fun l => decide (l.1 ≤ t)) hmono ls
  have hstate : counterAt k ls t =
      csingle k ((ls.filter (fun l => decide (l.1 ≤ t))).length -
        (ls.filter (fun l => decide (l.1 + l.2 ≤ t))).length) := by
    rw [counterAt, show ([] : PCounter) = csingle k 0 from by simp [csingle],
      foldl_cInc_csingle, foldl_cDec_csingle, Nat.zero_add]
  rw [hstate, cMem_csingle, decide_eq_true_eq]
  constructor
  · intro h
    obtain ⟨x, hx, hq, hp⟩ := hlt.mp (by omega)
    refine ⟨x, hx, by simpa using hq, ?_⟩
    have hp2 : ¬ (x.1 + x.2 ≤ t) := by simpa using hp
    omega
  · rintro ⟨x, hx, h1, h2⟩
    have hgt := hlt.mpr ⟨x, hx, by simpa using h1, by
      simp only [decide_eq_false_iff_not]
      omega⟩
    omega

/-! ## The scan pattern (`Highlight.build_re`, lines 259-264)

`build_re` concatenates, as a plain string, the inline case-insensitivity flag,
one backslash-b, the triggers joined by the bar character (each passed through
`re.escape`, so every trigger is a literal), and one final backslash-b.  In the
`re` grammar the alternation bar binds loosest, so the resulting pattern has
one alternative per trigger, of which only the FIRST carries the leading word
boundary and only the LAST the trailing one (with a single trigger the sole
alternative carries both).  `re.finditer` reports the non-overlapping matches
left to right, trying the alternatives in listed order at each position.  The
semantics below embeds exactly that, over the ASCII fragment of the `re`
classes (word characters are letters, digits and the underscore). -/

/-- The pattern string `build_re` produces (with `re.escape` left implicit:
every trigger is treated as literal text in the match semantics below). -/
def build_re (highlights : List String) : String :=
  "(?i)\\b" ++ String.intercalate "|" highlights ++ "\\b"

/-- A word character, for word-boundary purposes. -/
def isWordChar (c : Char) : Bool := c.isAlphanum || c == '_'

/-- A word boundary between an optional previous and next character (`none`
stands for the start or end of the subject string). -/
def wordBoundary (prev next : Option Char) : Bool :=
  (prev.elim false isWordChar) != (next.elim false isWordChar)

/-- ASCII-lowercased character code, modelling matching under the inline
case-insensitivity flag. -/
def lowCode (c : Char) : Nat :=
  if 65 ≤ c.toNat ∧ c.toNat ≤ 90 then c.toNat + 32 else c.toNat

/-- Case-insensitive literal match of `pat` against a prefix of the subject;
returns the matched subject characters. -/
def matchLitCI : List Char → List Char → Option (List Char)
  | [], _ => some []
  | _ :: _, [] => none
  | p :: ps, c :: cs =>
    if lowCode p = lowCode c then (matchLitCI ps cs).map (fun r => c :: r)
    else none

/-- The alternatives of the pattern built by `build_re`, in listed order, each
tagged with whether it carries the leading and/or the trailing word boundary. -/
def altFlags (ts : List String) : List (Bool × String × Bool) :=
  ts.enum.map (fun p => (p.1 == 0, p.2, p.1 == ts.length - 1))

/-- Try one alternative at the current position, given the previous character
and the rest of the subject. -/
def tryAlt (prev : Option Char) (rest : List Char)
    (alt : Bool × String × Bool) : Option (List Char) :=
  if alt.1 && ! wordBoundary prev rest.head? then none
  else
    match matchLitCI alt.2.1.toList rest with
    | none => none
    | some m =>
      let lastC := if m.isEmpty then prev else m.getLast?
      if alt.2.2 && ! wordBoundary lastC (rest.drop m.length).head? then none
      else some m

/-- One step of `re.finditer`: at each position try the alternatives in order;
on a match emit it and resume after the matched text (one character further for
an empty match); otherwise advance one character. -/
def finditerAux (alts : List (Bool × String × Bool)) :
    Nat → Option Char → List Char → Nat → List (Nat × String)
  | 0, _, _, _ => []
  | fuel + 1, prev, rest, pos =>
    match (alts.map (tryAlt prev rest)).reduceOption.head? with
    | some m =>
      if m.length = 0 then
        (pos, String.mk m) ::
          (match rest with
           | [] => []
           | c :: cs => finditerAux alts fuel (some c) cs (pos + 1))
      else
        (pos, String.mk m) ::
          finditerAux alts fuel m.getLast? (rest.drop m.length)
            (pos + m.length)
    | none =>
      match rest with
      | [] => []
      | c :: cs => finditerAux alts fuel (some c) cs (pos + 1)

/-- Embeds `re.finditer(build_re(triggers), content)`: the list of matches, as
`(position, matched text)` pairs. -/
def reFinditer (triggers : List String) (s : String) : List (Nat × String) :=
  finditerAux (altFlags triggers) (s.length + 1) none s.toList 0

/-- Claim C1 (code_bug evidence): with a single trigger the pattern is
word-boundary delimited as the spec states, but as soon as the alternation has
a second branch the precedence slip in `build_re` drops the trailing boundary
from the first trigger, so the trigger set `cat, dog` (in that iteration
order) matches `cat` inside `category`. -/
theorem build_re_boundary_precedence :
    reFinditer ["cat"] "category" = [] ∧
    reFinditer ["cat", "dog"] "the cat sat" = [(4, "cat")] ∧
    reFinditer ["cat", "dog"] "category" = [(0, "cat")] := by
  refine ⟨?_, ?_, ?_⟩ <;> rfl

/-! ## The message scan (`Highlight.highlights`, lines 238-257)

`highlights(message)` fetches the channel's trigger multimap, builds the
pattern over its key set, and walks the matches; for every owner of a matched
text it skips the owner if `user in await self.db_cog.blocks(message.author.id)`,
resolves the user object (modelled as the identity on ids), and yields the pair
when the owner is neither already seen nor the author.

The database cog is not part of the scanned source.  Modelled from the spec:
`blocks(userId)` returns the set of entity ids that `userId` has blocked (a
block is a directed relation blocker to blocked entity), and the channel
multimap's `getall` returns the owners of a trigger text.  Both are passed in
as functions; `triggers` is the multimap's key set in iteration order. -/

/-- The inner owner loop of `highlights` for one match (`for user in
highlight_users.getall(highlight)`); returns the grown seen set and the pairs
yielded for this match. -/
def scanUsers (blocks : Nat → List Nat) (author : Nat) (h : String) :
    List Nat → List Nat → List Nat × List (Nat × String)
  | [], seen => (seen, [])
  | u :: us, seen =>
    if u ∈ blocks author then
      scanUsers blocks author h us seen
    else if u ∉ seen ∧ u ≠ author then
      ((scanUsers blocks author h us (u :: seen)).1,
        (u, h) :: (scanUsers blocks author h us (u :: seen)).2)
    else
      scanUsers blocks author h us seen

/-- The outer match loop of `highlights` (`for match in re.finditer(...)`). -/
def scanMatches (getall : String → List Nat) (blocks : Nat → List Nat)
    (author : Nat) : List (Nat × String) → List Nat → List (Nat × String)
  | [], _ => []
  | (_, h) :: ms, seen =>
    (scanUsers blocks author h (getall h) seen).2 ++
      scanMatches getall blocks author ms
        (scanUsers blocks author h (getall h) seen).1

/-- Embeds `Highlight.highlights` as a pure function: the `(user, trigger)` pairs the
generator yields for one message. -/
def highlights (getall : String → List Nat) (blocks : Nat → List Nat)
    (author : Nat) (triggers : List String) (content : String) :
    List (Nat × String) :=
  if triggers = [] then []
  else scanMatches getall blocks author (reFinditer triggers content) []

lemma scanUsers_spec (blocks : Nat → List Nat) (author : Nat) (h : String) :
    ∀ (us seen : List Nat),
      (∀ x ∈ seen, x ∈ (scanUsers blocks author h us seen).1) ∧
      (∀ p ∈ (scanUsers blocks author h us seen).2,
        p.1 ∈ (scanUsers blocks author h us seen).1 ∧ p.1 ∉ seen) ∧
      ((scanUsers blocks author h us seen).2.map Prod.fst).Nodup := by
  intro us
  induction us with
  | nil => intro seen; simp [scanUsers]
  | cons u us ih =>
    intro seen
    by_cases hb : u ∈ blocks author
    · simpa [scanUsers, hb] using ih seen
    · by_cases hs : u ∉ seen ∧ u ≠ author
      · have ihs := ih (u :: seen)
        simp only [scanUsers, if_neg hb, if_pos hs]
        refine ⟨?_, ?_, ?_⟩
        · intro x hx
          exact ihs.1 x (List.mem_cons_of_mem _ hx)
        · intro p hp
          rcases List.mem_cons.mp hp with hp | hp
          · subst hp
            exact ⟨ihs.1 u (List.mem_cons_self _ _), hs.1⟩
          · refine ⟨(ihs.2.1 p hp).1, fun hmem => ?_⟩
            exact (ihs.2.1 p hp).2 (List.mem_cons_of_mem _ hmem)
        · simp only [List.map_cons, List.nodup_cons]
          refine ⟨fun hmem => ?_, ihs.2.2⟩
          obtain ⟨p, hp, hpu⟩ := List.mem_map.mp hmem
          exact (ihs.2.1 p hp).2 (hpu ▸ List.mem_cons_self _ _)
      · simpa [scanUsers, hb, hs] using ih seen

lemma scanMatches_spec (getall : String → List Nat) (blocks : Nat → List Nat)
    (author : Nat) :
    ∀ (ms : List (Nat × String)) (seen : List Nat),
      (∀ p ∈ scanMatches getall blocks author ms seen, p.1 ∉ seen) ∧
      ((scanMatches getall blocks author ms seen).map Prod.fst).Nodup := by
  intro ms
  induction ms with
  | nil => intro seen; simp [scanMatches]
  | cons m ms ih =>
    intro seen
    cases m with
    | mk pos h =>
      have hu := scanUsers_spec blocks author h (getall h) seen
      have ihr := ih (scanUsers blocks author h (getall h) seen).1
      simp only [scanMatches]
      constructor
      · intro p hp
        rcases List.mem_append.mp hp with hp | hp
        · exact (hu.2.1 p hp).2
        · intro hmem
          exact ihr.1 p hp (hu.1 p.1 hmem)
      · rw [List.map_append, List.nodup_append]
        refine ⟨hu.2.2, ihr.2, ?_⟩
        intro a ha ha2
        obtain ⟨p, hp, hpa⟩ := List.mem_map.mp ha
        obtain ⟨p2, hp2, hpa2⟩ := List.mem_map.mp ha2
        exact ihr.1 p2 hp2 (hpa2 ▸ hpa ▸ (hu.2.1 p hp).1)

/-- Claim C8: within one message scan at most one pair per distinct user is
yielded, whatever the triggers, message and block lists; on the spec's own
example (one user owning both `coffee` and `tea`, message `coffee and tea`)
exactly one pair is yielded, carrying the first matched trigger. -/
theorem highlights_once_per_user :
    (∀ (getall : String → List Nat) (blocks : Nat → List Nat)
       (author : Nat) (ts : List String) (content : String),
       ((highlights getall blocks author ts content).map Prod.fst).Nodup) ∧
    highlights
      (fun h => if h == "coffee" then [2] else if h == "tea" then [2] else [])
      (fun _ => []) 1 ["coffee", "tea"] "coffee and tea" = [(2, "coffee")] := by
  constructor
  · intro getall blocks author ts content
    unfold highlights
    split
    · simp
    · exact (scanMatches_spec getall blocks author _ []).2
  · rfl

/-- A concrete block relation for the C2 evidence: user 2 has blocked user 1;
user 1 has blocked nobody. -/
def blocksEx : Nat → List Nat := fun u => if u == 2 then [1] else []

/-- Claim C2 (code_bug evidence): user 2 owns the trigger `hi` and has blocked
author 1, yet the scan of author 1's message `hi` still yields the pair for
user 2 — line 250 tests `user ∈ blocks(author)` (did the author block the
owner?) instead of `author ∈ blocks(user)` (did the owner block the author?),
so the owner's own block of the author is never consulted. -/
theorem highlights_ignores_owner_block :
    (1 ∈ blocksEx 2) ∧
    highlights (fun h => if h == "hi" then [2] else []) blocksEx 1 ["hi"] "hi" =
      [(2, "hi")] := by
  exact ⟨by decide, rfl⟩

/-! ## Presence filtering in the message handler (`on_message`, lines 193-201)

`on_message` iterates the pairs the `highlights` generator yields and calls
`notify` only when `(message.channel.id, user.id) not in self.recently_spoken`.
`on_message_notify` is that filter: the pairs that actually reach `notify`. -/

/-- The `(user, trigger)` pairs `on_message` dispatches to `notify`, given the
current `recently_spoken` counter: the yielded pairs whose key is absent. -/
def on_message_notify (c : PCounter) (channel : Nat)
    (hl : List (Nat × String)) : List (Nat × String) :=
  hl.filter (fun p => ! cMem c (channel, p.1))

/-- Claim C9: while a user holds an active presence lease on
`(channel, user)` — i.e. the key is in the `recently_spoken` counter — no
notification for that user is dispatched from a message scanned in that
channel, whatever the message, triggers and block lists. -/
theorem presence_suppresses_notification (c : PCounter) (channel A : Nat)
    (getall : String → List Nat) (blocks : Nat → List Nat) (author : Nat)
    (ts : List String) (content : String)
    (h : cMem c (channel, A) = true) :
    A ∉ (on_message_notify c channel
      (highlights getall blocks author ts content)).map Prod.fst := by
  intro hA
  obtain ⟨p, hp, hpa⟩ := List.mem_map.mp hA
  have hf := (List.mem_filter.mp hp).2
  rw [hpa] at hf
  simp only [h, Bool.not_true] at hf
  exact Bool.false_ne_true hf

/-- Witness for C9: user 2 holds a lease on channel 1 and owns trigger `cat`;
a message `the cat sat` from author 3 produces no notification for user 2. -/
theorem presence_suppresses_notification_witness :
    cMem [(((1 : Nat), (2 : Nat)), (1 : Int))] (1, 2) = true ∧
    2 ∉ (on_message_notify [(((1 : Nat), (2 : Nat)), (1 : Int))] 1
      (highlights (fun h => if h == "cat" then [2] else []) (fun _ => []) 3
        ["cat"] "the cat sat")).map Prod.fst :=
  ⟨by decide,
   presence_suppresses_notification _ _ _ _ _ _ _ _ (by decide)⟩

/-! ## The notification job (`Highlight.notify`, lines 266-276)

`notify` first sleeps out the remainder of the settle window, then builds the
notification via `notification_message` (whose `embed_description` awaits the
channel history fetch), and finally sends it, with only the `user.send` call
wrapped in `contextlib.suppress(discord.HTTPException)`.  Errors are embedded
with `Except`: the history fetch and the send each either succeed or raise a
`discord` error; only an `HTTPException` raised by the send is suppressed. -/

/-- A `discord` exception: `HTTPException` (which `contextlib.suppress` in
`notify` absorbs) or any other error. -/
inductive DiscordErr
  | httpException
  | otherError
deriving DecidableEq

/-- A message as consumed by `format_message`: its id, its already-rendered
`strftime` timestamp, its author's display string, and its content. -/
structure HMsg where
  id : Nat
  dateStr : String
  authorName : String
  content : String
deriving DecidableEq

/-- Embeds `Highlight.format_message`: the timestamp (bold for the triggering
message), the author and the content. -/
def format_message (m : HMsg) ( is_highlight : Bool) : String :=
  (if is_highlight then "**" ++ m.dateStr ++ "**" else m.dateStr) ++ " " ++
    m.authorName ++ ": " ++ m.content

/-- Embeds `Highlight.embed_description`: joins the formatted history snippet
(bolding the message whose id equals the triggering message's id) with the
jump link; a failed history fetch propagates its error. -/
def embed_description (origId : Nat) (jumpUrl : String)
    (history : Except DiscordErr (List HMsg)) : Except DiscordErr String :=
  history.map (fun msgs =>
    String.intercalate "\n"
        (msgs.map (fun m => format_message m (m.id == origId))) ++
      "\n\n" ++ "[Original message](" ++ jumpUrl ++ ")")

/-- Embeds `Highlight.notification_message`: the content line and the embed
description; a failed history fetch propagates its error. -/
def notification_message (channelMention guildName highlight : String)
    (origId : Nat) (jumpUrl : String)
    (history : Except DiscordErr (List HMsg)) :
    Except DiscordErr (String × String) :=
  (embed_description origId jumpUrl history).map (fun desc =>
    ("In " ++ channelMention ++ " for server " ++ guildName ++
      ", you were mentioned with highlight word **" ++ highlight ++ "**",
     desc))

/-- Embeds `Highlight.notify` after its settle sleep: build the notification (the
history fetch may raise, and nothing catches it), then send it with only
`discord.HTTPException` suppressed. -/
def notify (channelMention guildName highlight : String) (origId : Nat)
    (jumpUrl : String) (history : Except DiscordErr (List HMsg))
    (sendResult : Except DiscordErr Unit) : Except DiscordErr Unit :=
  match notification_message channelMention guildName highlight origId
      jumpUrl history with
  | Except.error e => Except.error e
  | Except.ok _ =>
    match sendResult with
    | Except.ok _ => Except.ok ()
    | Except.error DiscordErr.httpException => Except.ok ()
    | Except.error e => Except.error e

/-- Claim C3 (counterexample): a history fetch that fails with an
`HTTPException` is NOT absorbed — `notify` propagates it to its caller
(`on_message`, which awaits `notify` inline and therefore also skips the
author's activity lease for that message). -/
theorem notify_history_error_propagates :
    notify "c" "g" "cat" 0 "u" (Except.error DiscordErr.httpException)
      (Except.ok ()) = Except.error DiscordErr.httpException := rfl

/-- Claim C3 (amended): when the history fetch succeeds, a rejected
direct-message send of the platform HTTP-error kind is fully absorbed:
`notify` returns normally. -/
theorem notify_send_error_absorbed (channelMention guildName highlight : String)
    (origId : Nat) (jumpUrl : String) (msgs : List HMsg)
    (r : Except DiscordErr Unit)
    (h : r = Except.ok () ∨ r = Except.error DiscordErr.httpException) :
    notify channelMention guildName highlight origId jumpUrl
      (Except.ok msgs) r = Except.ok () := by
  rcases h with h | h <;> subst h <;> rfl

/-- Witness for the amended C3 at a concrete rejected send. -/
theorem notify_send_error_absorbed_witness :
    notify "c" "g" "cat" 0 "u" (Except.ok [])
      (Except.error DiscordErr.httpException) = Except.ok () :=
  notify_send_error_absorbed "c" "g" "cat" 0 "u" [] _ (Or.inr rfl)

/-! ## Timing (`LAST_SPOKEN_CUTOFF`, `NEW_MESSAGES_TIMEOUT`, the sleeps)

Elapsed seconds are rationals (`total_seconds()` differences).  Network calls
are given zero model time; `asyncio.sleep(d)` suspends its caller for `d`
seconds.  `on_message` awaits each `notify` and then awaits
`_track_spoken(...)`, which only returns after its own `sleep(delay)`. -/

/-- Constant `LAST_SPOKEN_CUTOFF` (line 34): seconds a user stays recently spoken. -/
def LAST_SPOKEN_CUTOFF : ℚ := 10

/-- Constant `NEW_MESSAGES_TIMEOUT` (line 36): the settle window before delivering. -/
def NEW_MESSAGES_TIMEOUT : ℚ := 9

/-- The settle sleep at the top of `notify` (lines 268-271), given the elapsed
time since the triggering message was created. -/
def notify_wait (diff : ℚ) : ℚ :=
  if diff < NEW_MESSAGES_TIMEOUT then NEW_MESSAGES_TIMEOUT - diff else 0

/-- The time `_track_spoken` keeps its caller suspended: it increments,
sleeps the full delay, decrements, and only then returns. -/
def track_spoken_duration (delay : ℚ) : ℚ := delay

/-- The time the `on_message` handler itself stays suspended: the settle
sleeps of the notify calls it awaits in turn (one entry of `notifyDiffs` per
dispatched notification, the elapsed time at that call), then the awaited
author lease of the full cutoff. -/
def on_message_duration (notifyDiffs : List ℚ) : ℚ :=
  (notifyDiffs.map notify_wait).sum + track_spoken_duration LAST_SPOKEN_CUTOFF

/-- Claim C6 (counterexample): even for a message dispatching no notification
at all, the `on_message` handler only returns after the full 10-second
just-spoke window — `await self._track_spoken(...)` suspends it for the whole
lease duration. -/
theorem on_message_blocks_for_window :
    on_message_duration [] = 10 ∧ (0 : ℚ) < on_message_duration [] := by
  constructor <;>
    norm_num [on_message_duration, track_spoken_duration, LAST_SPOKEN_CUTOFF]

/-- Claim C6 (amended): the handler's suspension always lasts at least the
full just-spoke window, on top of every dispatched notification's settle
sleep; it never completes early. -/
theorem on_message_duration_at_least_window (notifyDiffs : List ℚ) :
    LAST_SPOKEN_CUTOFF ≤ on_message_duration notifyDiffs := by
  have hsum : 0 ≤ (notifyDiffs.map notify_wait).sum := by
    apply List.sum_nonneg
    intro x hx
    obtain ⟨d, _, hd⟩ := List.mem_map.mp hx
    rw [← hd]
    unfold notify_wait
    split
    · linarith
    · exact le_refl 0
  unfold on_message_duration track_spoken_duration
  linarith

/-- Embeds `Highlight.on_typing` (lines 203-207): the lease taken for a typing event,
given the elapsed seconds `diff` since the typing started — only when still
inside the cutoff, and only for the remaining portion. -/
def on_typing_lease (diff : ℚ) : Option ℚ :=
  if diff < LAST_SPOKEN_CUTOFF then some (LAST_SPOKEN_CUTOFF - diff) else none

/-- Claim C7: a typing event with elapsed time `e` since typing started leases
for exactly the remainder of the window when `e` is inside it — so the lease
taken at time `start + e` ends exactly at `start + LAST_SPOKEN_CUTOFF`, never
beyond the original window's end — and takes no lease at all for `e` at or
past the cutoff. -/
theorem on_typing_remaining_window (start e : ℚ) :
    (e < LAST_SPOKEN_CUTOFF →
      on_typing_lease e = some (LAST_SPOKEN_CUTOFF - e) ∧
      (start + e) + (LAST_SPOKEN_CUTOFF - e) = start + LAST_SPOKEN_CUTOFF) ∧
    (LAST_SPOKEN_CUTOFF ≤ e → on_typing_lease e = none) := by
  constructor
  · intro h
    constructor
    · unfold on_typing_lease
      rw [if_pos h]
    · ring
  · intro h
    unfold on_typing_lease
    rw [if_neg (not_lt.mpr h)]

/-- Witness for C7 at `e = 3` (inside the window) and `e = 12` (outside). -/
theorem on_typing_remaining_window_witness :
    (on_typing_lease 3 = some (LAST_SPOKEN_CUTOFF - 3) ∧
      ((0 : ℚ) + 3) + (LAST_SPOKEN_CUTOFF - 3) = 0 + LAST_SPOKEN_CUTOFF) ∧
    on_typing_lease 12 = none :=
  ⟨(on_typing_remaining_window 0 3).1 (by norm_num [LAST_SPOKEN_CUTOFF]),
   (on_typing_remaining_window 0 12).2 (by norm_num [LAST_SPOKEN_CUTOFF])⟩

/-- Claim C10: a job for a message created at `T`, entering `notify` at
`T + x`: for `x` inside the settle window the sleep ends delivery preparation
exactly at `T + NEW_MESSAGES_TIMEOUT` (so never earlier), and for `x` at or
past the window no extra wait happens. -/
theorem notify_settle_window (T x : ℚ) :
    (x < NEW_MESSAGES_TIMEOUT →
      (T + x) + notify_wait x = T + NEW_MESSAGES_TIMEOUT ∧
      T + NEW_MESSAGES_TIMEOUT ≤ (T + x) + notify_wait x) ∧
    (NEW_MESSAGES_TIMEOUT ≤ x → notify_wait x = 0) := by
  constructor
  · intro h
    have heq : (T + x) + notify_wait x = T + NEW_MESSAGES_TIMEOUT := by
      unfold notify_wait
      rw [if_pos h]
      ring
    exact ⟨heq, le_of_eq heq.symm⟩
  · intro h
    unfold notify_wait
    rw [if_neg (not_lt.mpr h)]

/-- Witness for C10 at `x = 3` (inside the window) and `x = 12` (past it). -/
theorem notify_settle_window_witness :
    (((0 : ℚ) + 3) + notify_wait 3 = 0 + NEW_MESSAGES_TIMEOUT ∧
      (0 : ℚ) + NEW_MESSAGES_TIMEOUT ≤ (0 + 3) + notify_wait 3) ∧
    notify_wait 12 = 0 :=
  ⟨(notify_settle_window 0 3).1 (by norm_num [NEW_MESSAGES_TIMEOUT]),
   (notify_settle_window 0 12).2 (by norm_num [NEW_MESSAGES_TIMEOUT])⟩

end Highlight
